import Mathlib

/-!
Verification of the oyako HTTPProxy inclusion controller
(`controllers/httpproxy_controller.go`) against its specification.

The controller keeps a parent HTTPProxy's `spec.includes` list in sync
with child HTTPProxy resources that declare a parent via annotations.
We shallowly embed the relevant Go code: the pure helpers
(`isPrefixDuplicate`, `findIncludeRef`, the parent-reference parsing of
`getParentProxy`, the merge logic of `reconcileParentProxy`, the removal
logic of `cleanupParentProxy`) become Lean functions over explicit data,
and the stateful reconcile paths become step functions on a small world
state recording the child, the parent object (if present in the store),
and the sequence of store writes performed.
-/

namespace Oyako

/-- Embeds the annotation-key constants of the controller. -/
def allowInclusionAnn : String := "oyako.atelierhsn.com/allow-inclusion"

def parentRefAnn : String := "oyako.atelierhsn.com/parent"

def pathPrefixAnn : String := "oyako.atelierhsn.com/prefix"

def finalizerName : String := "oyako.atelierhsn.com/finalizer"

/-- A Contour `MatchCondition` as the controller sees it: a path-prefix
string plus the remaining (non-prefix) match fields, abstracted to an
optional header condition.  The Go code only ever reads `.Prefix` and
only ever constructs conditions with every other field zero. -/
structure MatchCondition where
  pfx : String
  header : Option String
deriving DecidableEq, Repr

/-- A Contour `Include`: the child's namespace and name plus its match
conditions. -/
structure Include where
  namespc : String
  name : String
  conditions : List MatchCondition
deriving DecidableEq, Repr

def dummyInclude : Include := ⟨"", "", []⟩

/-- An HTTPProxy object, flattening `ObjectMeta` (namespace, name,
annotations, finalizers, deletion timestamp) and `Spec.Includes`.
`deletionRequested` embeds `DeletionTimestamp.IsZero() == false`. -/
structure Proxy where
  namespc : String
  name : String
  annots : List (String × String)
  finalizers : List String
  deletionRequested : Bool
  includes : List Include
deriving DecidableEq, Repr

/-- Go map lookup as an option: first binding for the key, if any. -/
def findAnn (m : List (String × String)) (k : String) : Option String :=
  (m.find? (fun p => p.1 == k)).map Prod.snd

/-- Go map indexing `m[k]`: the bound value, or the zero value `""`. -/
def lookupAnn (m : List (String × String)) (k : String) : String :=
  (findAnn m k).getD ""

/-- Whether an include entry carries the given child identity
(`include.Namespace == childMeta.Namespace && include.Name == childMeta.Name`). -/
def identMatch (cns cn : String) (inc : Include) : Bool :=
  inc.namespc == cns && inc.name == cn

/-- Embeds `isPrefixDuplicate`: scans the includes, skipping entries with
the child's own identity, and reports whether any remaining entry has a
condition whose path-prefix equals the requested one. -/
def isPrefixDuplicate (l : List Include) (cns cn pfxStr : String) : Bool :=
  l.any fun inc =>
    if identMatch cns cn inc then false
    else inc.conditions.any (fun c => c.pfx == pfxStr)

/-- Embeds `findIncludeRef`: index of the first entry with the child's
identity; `none` embeds Go's `-1`. -/
def findIncludeRef (l : List Include) (cns cn : String) : Option Nat :=
  match l with
  | [] => none
  | inc :: rest =>
    if identMatch cns cn inc then some 0
    else (findIncludeRef rest cns cn).map (· + 1)

/-- Embeds `strings.Split` with a one-character separator (Go semantics:
splitting the empty string yields `[""]`, and separators at the ends
yield empty segments). -/
def splitOnChar (c : Char) (l : List Char) : List (List Char) :=
  match l with
  | [] => [[]]
  | x :: xs =>
    match splitOnChar c xs with
    | [] => [[]]
    | y :: ys => if x = c then [] :: y :: ys else (x :: y) :: ys

/-- Embeds the parsing half of `getParentProxy`: split the annotation
value on `/`; error (`none`) unless exactly two segments result, in which
case they become the parent's namespace and name. -/
def parseParentRef (s : String) : Option (String × String) :=
  match splitOnChar '/' s.toList with
  | [a, b] => some (String.mk a, String.mk b)
  | _ => none

/-- Embeds lines 185-188 of `reconcileParentProxy`: the prefix annotation
if non-empty, else `/` followed by the child's name. -/
def desiredPfx (child : Proxy) : String :=
  let p := lookupAnn child.annots pathPrefixAnn
  if p == "" then "/" ++ child.name else p

inductive MergeError where
  | notPermitted
  | duplicatePfx
deriving DecidableEq, Repr

/-- The Inclusion Merger (spec 4.2): the pure core of
`reconcileParentProxy` lines 182-209.  Fails when the parent does not
allow inclusion or when a different child already claims the prefix;
otherwise replaces the child's existing entry's conditions in place, or
appends a fresh entry at the end. -/
def merge (l : List Include) (cns cn pfxStr : String) (allows : Bool) :
    Except MergeError (List Include) :=
  if !allows then .error .notPermitted
  else if isPrefixDuplicate l cns cn pfxStr then .error .duplicatePfx
  else
    let conds : List MatchCondition := [{ pfx := pfxStr, header := none }]
    match findIncludeRef l cns cn with
    | some i => .ok (l.set i { l.getD i dummyInclude with conditions := conds })
    | none => .ok (l ++ [{ namespc := cns, name := cn, conditions := conds }])

/-- The remove half of the Inclusion Merger (spec 4.2): the pure core of
`cleanupParentProxy` lines 159-164.  `append(l[:i], l[i+1:]...)` is
`take i ++ drop (i+1)`. -/
def removeInclude (l : List Include) (cns cn : String) : List Include :=
  match findIncludeRef l cns cn with
  | none => l
  | some i => l.take i ++ l.drop (i + 1)

/-- Embeds `hasFinalizer`. -/
def hasFinalizer (p : Proxy) : Bool :=
  p.finalizers.any (fun f => f == finalizerName)

/-- Embeds `controllerutil.RemoveFinalizer`: drop every occurrence. -/
def removeFinalizer (p : Proxy) : Proxy :=
  { p with finalizers := p.finalizers.filter (fun f => f != finalizerName) }

/-- The state the reconcile paths touch: the child being reconciled and
the store's content at the child's declared parent key (`none` when the
parent object does not exist). -/
structure World where
  child : Proxy
  parent : Option Proxy
deriving DecidableEq, Repr

/-- A write issued to the Resource Store. -/
inductive Op where
  | updateParent (p : Proxy)
  | updateChild (c : Proxy)
deriving DecidableEq, Repr

inductive RErr where
  | parseErr
  | parentNotFound
  | notAllowed
  | dupPfx
deriving DecidableEq, Repr

/-- Outcome of one reconcile path: the resulting state, the store writes
performed in order, and the error returned, if any. -/
structure StepResult where
  world : World
  ops : List Op
  err : Option RErr
deriving DecidableEq, Repr

/-- Embeds `reconcileParentProxy` (lines 176-218): resolve the parent
reference, check the allow-inclusion annotation, compute the desired
prefix, merge, and on success write the parent back. -/
def reconcileParentStep (w : World) : StepResult :=
  match parseParentRef (lookupAnn w.child.annots parentRefAnn) with
  | none => ⟨w, [], some .parseErr⟩
  | some _ =>
    match w.parent with
    | none => ⟨w, [], some .parentNotFound⟩
    | some p =>
      let allows := lookupAnn p.annots allowInclusionAnn == "true"
      match merge p.includes w.child.namespc w.child.name (desiredPfx w.child) allows with
      | .error .notPermitted => ⟨w, [], some .notAllowed⟩
      | .error .duplicatePfx => ⟨w, [], some .dupPfx⟩
      | .ok l =>
        let p' := { p with includes := l }
        ⟨{ w with parent := some p' }, [.updateParent p'], none⟩

/-- Embeds `cleanupParentProxy` (lines 150-174): resolve the parent
reference (a failing `Get`, including not-found, is returned as an
error), require the allow-inclusion annotation, and excise the child's
entry when present, writing the parent back. -/
def cleanupStep (w : World) : StepResult :=
  match parseParentRef (lookupAnn w.child.annots parentRefAnn) with
  | none => ⟨w, [], some .parseErr⟩
  | some _ =>
    match w.parent with
    | none => ⟨w, [], some .parentNotFound⟩
    | some p =>
      if lookupAnn p.annots allowInclusionAnn != "true" then ⟨w, [], some .notAllowed⟩
      else
        match findIncludeRef p.includes w.child.namespc w.child.name with
        | none => ⟨w, [], none⟩
        | some i =>
          let p' := { p with includes := p.includes.take i ++ p.includes.drop (i + 1) }
          ⟨{ w with parent := some p' }, [.updateParent p'], none⟩

/-- Embeds the deletion branch of `Reconcile` (lines 80-91): when
deletion is requested and the finalizer is present, run the cleanup; on
success remove the finalizer and write the child; on error return the
error with nothing further written. -/
def terminatingStep (w : World) : StepResult :=
  if w.child.deletionRequested && hasFinalizer w.child then
    let r := cleanupStep w
    match r.err with
    | some e => ⟨r.world, r.ops, some e⟩
    | none =>
      let c' := removeFinalizer r.world.child
      ⟨{ r.world with child := c' }, r.ops ++ [.updateChild c'], none⟩
  else ⟨w, [], none⟩

/-! ### Helper lemmas about the include-list operations -/

/-- Replace-or-append, the extensional behavior of `reconcileParentProxy`
lines 199-209: replace the conditions of the first entry with the child's
identity, or append a fresh entry. -/
def upsertConds (cns cn : String) (conds : List MatchCondition) :
    List Include → List Include
  | [] => [⟨cns, cn, conds⟩]
  | inc :: rest =>
    if identMatch cns cn inc then { inc with conditions := conds } :: rest
    else inc :: upsertConds cns cn conds rest

/-- Number of entries carrying the given child identity. -/
def countIdent (l : List Include) (cns cn : String) : Nat :=
  (l.filter (identMatch cns cn)).length

theorem findIncludeRef_cons_match {cns cn : String} {inc : Include}
    (rest : List Include) (hm : identMatch cns cn inc = true) :
    findIncludeRef (inc :: rest) cns cn = some 0 := by
  rw [findIncludeRef, hm]
  simp

theorem findIncludeRef_cons_not_match {cns cn : String} {inc : Include}
    (rest : List Include) (hm : identMatch cns cn inc = false) :
    findIncludeRef (inc :: rest) cns cn = (findIncludeRef rest cns cn).map (· + 1) := by
  rw [findIncludeRef, hm]
  simp

theorem findIncludeRef_eq_none_iff (l : List Include) (cns cn : String) :
    findIncludeRef l cns cn = none ↔ ∀ inc ∈ l, identMatch cns cn inc = false := by
  induction l with
  | nil => simp [findIncludeRef]
  | cons inc rest ih =>
    by_cases h : identMatch cns cn inc = true
    · simp [findIncludeRef_cons_match rest h, h]
    · have h' : identMatch cns cn inc = false := by simpa using h
      simp [findIncludeRef_cons_not_match rest h', h', ih]

theorem findIncludeRef_spec (l : List Include) (cns cn : String) (i : Nat)
    (h : findIncludeRef l cns cn = some i) :
    i < l.length ∧ identMatch cns cn (l.getD i dummyInclude) = true ∧
      ∀ j, j < i → identMatch cns cn (l.getD j dummyInclude) = false := by
  induction l generalizing i with
  | nil => simp [findIncludeRef] at h
  | cons inc rest ih =>
    by_cases hm : identMatch cns cn inc = true
    · rw [findIncludeRef_cons_match rest hm] at h
      obtain rfl : (0 : Nat) = i := by simpa using h
      simp [hm]
    · have hm' : identMatch cns cn inc = false := by simpa using hm
      rw [findIncludeRef_cons_not_match rest hm'] at h
      cases hfr : findIncludeRef rest cns cn with
      | none => rw [hfr] at h; simp at h
      | some i' =>
        rw [hfr] at h
        simp only [Option.map_some'] at h
        obtain rfl : i' + 1 = i := by simpa using h
        obtain ⟨h1, h2, h3⟩ := ih i' hfr
        refine ⟨by simpa using h1, by simpa using h2, ?_⟩
        intro j hj
        cases j with
        | zero => simpa using hm'
        | succ j' => simpa using h3 j' (by omega)

theorem findIncludeRef_isSome_of_mem (l : List Include) (cns cn : String)
    (inc : Include) (hmem : inc ∈ l) (hm : identMatch cns cn inc = true) :
    ∃ i, findIncludeRef l cns cn = some i := by
  cases hf : findIncludeRef l cns cn with
  | some i => exact ⟨i, rfl⟩
  | none =>
    rw [findIncludeRef_eq_none_iff] at hf
    simp [hf inc hmem] at hm

theorem append_eq_upsertConds (cns cn : String) (conds : List MatchCondition)
    (l : List Include) (h : findIncludeRef l cns cn = none) :
    l ++ [⟨cns, cn, conds⟩] = upsertConds cns cn conds l := by
  induction l with
  | nil => simp [upsertConds]
  | cons inc rest ih =>
    rw [findIncludeRef_eq_none_iff] at h
    have hm : identMatch cns cn inc = false := h inc (by simp)
    have hrest : findIncludeRef rest cns cn = none := by
      rw [findIncludeRef_eq_none_iff]
      exact fun i hi => h i (by simp [hi])
    simp [upsertConds, hm, ih hrest]

theorem set_eq_upsertConds (cns cn : String) (conds : List MatchCondition)
    (l : List Include) (i : Nat) (h : findIncludeRef l cns cn = some i) :
    l.set i { l.getD i dummyInclude with conditions := conds } =
      upsertConds cns cn conds l := by
  induction l generalizing i with
  | nil => simp [findIncludeRef] at h
  | cons inc rest ih =>
    by_cases hm : identMatch cns cn inc = true
    · rw [findIncludeRef_cons_match rest hm] at h
      obtain rfl : (0 : Nat) = i := by simpa using h
      simp [upsertConds, hm]
    · have hm' : identMatch cns cn inc = false := by simpa using hm
      rw [findIncludeRef_cons_not_match rest hm'] at h
      cases hfr : findIncludeRef rest cns cn with
      | none => rw [hfr] at h; simp at h
      | some i' =>
        rw [hfr] at h
        simp only [Option.map_some'] at h
        obtain rfl : i' + 1 = i := by simpa using h
        simp only [upsertConds, hm', Bool.false_eq_true, if_false, List.set_cons_succ,
          List.getD_cons_succ]
        rw [ih i' hfr]

theorem merge_ok_of_not_dup (l : List Include) (cns cn pfxStr : String)
    (h : isPrefixDuplicate l cns cn pfxStr = false) :
    merge l cns cn pfxStr true = .ok (upsertConds cns cn [⟨pfxStr, none⟩] l) := by
  rw [merge]
  simp only [Bool.not_true, Bool.false_eq_true, if_false, h]
  cases hf : findIncludeRef l cns cn with
  | none => exact congrArg Except.ok (append_eq_upsertConds cns cn _ l hf)
  | some i => exact congrArg Except.ok (set_eq_upsertConds cns cn _ l i hf)

theorem merge_ok_inv (l : List Include) (cns cn pfxStr : String) (b : Bool)
    (l' : List Include) (h : merge l cns cn pfxStr b = .ok l') :
    b = true ∧ isPrefixDuplicate l cns cn pfxStr = false ∧
      l' = upsertConds cns cn [⟨pfxStr, none⟩] l := by
  cases b with
  | false => simp [merge] at h
  | true =>
    by_cases hd : isPrefixDuplicate l cns cn pfxStr = true
    · simp [merge, hd] at h
    · have hd' : isPrefixDuplicate l cns cn pfxStr = false := by simpa using hd
      rw [merge_ok_of_not_dup l cns cn pfxStr hd'] at h
      simp at h
      exact ⟨rfl, hd', h.symm⟩

theorem isPrefixDuplicate_iff (l : List Include) (cns cn pfxStr : String) :
    isPrefixDuplicate l cns cn pfxStr = true ↔
      ∃ inc ∈ l, identMatch cns cn inc = false ∧
        ∃ c ∈ inc.conditions, c.pfx = pfxStr := by
  simp only [isPrefixDuplicate, List.any_eq_true]
  constructor
  · rintro ⟨inc, hmem, h⟩
    by_cases hm : identMatch cns cn inc = true
    · simp [hm] at h
    · have hm' : identMatch cns cn inc = false := by simpa using hm
      simp only [hm', Bool.false_eq_true, if_false, List.any_eq_true, beq_iff_eq] at h
      exact ⟨inc, hmem, hm', h⟩
  · rintro ⟨inc, hmem, hm, c, hc, hp⟩
    refine ⟨inc, hmem, ?_⟩
    simp only [hm, Bool.false_eq_true, if_false, List.any_eq_true, beq_iff_eq]
    exact ⟨c, hc, hp⟩

theorem identMatch_mk (cns cn : String) (conds : List MatchCondition) :
    identMatch cns cn ⟨cns, cn, conds⟩ = true := by
  simp [identMatch]

theorem identMatch_setConds (cns cn : String) (inc : Include)
    (conds : List MatchCondition) :
    identMatch cns cn { inc with conditions := conds } = identMatch cns cn inc := by
  simp [identMatch]

theorem countIdent_cons (inc : Include) (rest : List Include) (cns cn : String) :
    countIdent (inc :: rest) cns cn =
      (if identMatch cns cn inc then 1 else 0) + countIdent rest cns cn := by
  by_cases h : identMatch cns cn inc = true
  · simp [countIdent, List.filter_cons, h]
    omega
  · simp [countIdent, List.filter_cons, h]

theorem countIdent_eq_zero_iff (l : List Include) (cns cn : String) :
    countIdent l cns cn = 0 ↔ ∀ inc ∈ l, identMatch cns cn inc = false := by
  simp [countIdent, List.length_eq_zero, List.filter_eq_nil_iff]

theorem countIdent_pos_of_some (l : List Include) (cns cn : String) (i : Nat)
    (h : findIncludeRef l cns cn = some i) : 1 ≤ countIdent l cns cn := by
  induction l generalizing i with
  | nil => simp [findIncludeRef] at h
  | cons inc rest ih =>
    by_cases hm : identMatch cns cn inc = true
    · simp [countIdent_cons, hm]
    · have hm' : identMatch cns cn inc = false := by simpa using hm
      rw [findIncludeRef_cons_not_match rest hm'] at h
      cases hfr : findIncludeRef rest cns cn with
      | none => rw [hfr] at h; simp at h
      | some i' =>
        have := ih i' hfr
        simp [countIdent_cons, hm']
        omega

theorem countIdent_upsert_none (cns cn : String) (conds : List MatchCondition)
    (l : List Include) (h : findIncludeRef l cns cn = none) :
    countIdent (upsertConds cns cn conds l) cns cn = countIdent l cns cn + 1 := by
  rw [← append_eq_upsertConds cns cn conds l h]
  simp [countIdent, List.filter_append, identMatch_mk]

theorem countIdent_upsert_some (cns cn : String) (conds : List MatchCondition)
    (l : List Include) (i : Nat) (h : findIncludeRef l cns cn = some i) :
    countIdent (upsertConds cns cn conds l) cns cn = countIdent l cns cn := by
  induction l generalizing i with
  | nil => simp [findIncludeRef] at h
  | cons inc rest ih =>
    by_cases hm : identMatch cns cn inc = true
    · simp [upsertConds, hm, countIdent_cons, identMatch_setConds]
    · have hm' : identMatch cns cn inc = false := by simpa using hm
      rw [findIncludeRef_cons_not_match rest hm'] at h
      cases hfr : findIncludeRef rest cns cn with
      | none => rw [hfr] at h; simp at h
      | some i' =>
        simp [upsertConds, hm', countIdent_cons, ih i' hfr]

theorem upsertConds_mem (cns cn : String) (conds : List MatchCondition)
    (l : List Include) (inc' : Include) (h : inc' ∈ upsertConds cns cn conds l) :
    inc' ∈ l ∨ identMatch cns cn inc' = true := by
  induction l with
  | nil =>
    simp [upsertConds] at h
    subst h
    simp [identMatch_mk]
  | cons inc rest ih =>
    by_cases hm : identMatch cns cn inc = true
    · simp only [upsertConds, hm, if_true, List.mem_cons] at h
      rcases h with h | h
      · subst h
        right
        rw [identMatch_setConds]
        exact hm
      · exact Or.inl (by simp [h])
    · have hm' : identMatch cns cn inc = false := by simpa using hm
      simp only [upsertConds, hm', Bool.false_eq_true, if_false, List.mem_cons] at h
      rcases h with h | h
      · exact Or.inl (by simp [h])
      · rcases ih h with h' | h'
        · exact Or.inl (by simp [h'])
        · exact Or.inr h'

theorem upsertConds_idem (cns cn : String) (conds : List MatchCondition)
    (l : List Include) :
    upsertConds cns cn conds (upsertConds cns cn conds l) = upsertConds cns cn conds l := by
  induction l with
  | nil => simp [upsertConds, identMatch_mk]
  | cons inc rest ih =>
    by_cases hm : identMatch cns cn inc = true
    · simp [upsertConds, hm, identMatch_setConds]
    · have hm' : identMatch cns cn inc = false := by simpa using hm
      simp [upsertConds, hm', ih]

theorem upsertConds_entry (cns cn : String) (conds : List MatchCondition)
    (l : List Include) :
    ∃ i, findIncludeRef (upsertConds cns cn conds l) cns cn = some i ∧
      ((upsertConds cns cn conds l).getD i dummyInclude).conditions = conds := by
  induction l with
  | nil =>
    refine ⟨0, ?_, rfl⟩
    simp [upsertConds, findIncludeRef_cons_match [] (identMatch_mk cns cn conds)]
  | cons inc rest ih =>
    by_cases hm : identMatch cns cn inc = true
    · have hm2 : identMatch cns cn { inc with conditions := conds } = true := by
        rw [identMatch_setConds]; exact hm
      have hu : upsertConds cns cn conds (inc :: rest) =
          { inc with conditions := conds } :: rest := by
        simp [upsertConds, hm]
      refine ⟨0, ?_, ?_⟩
      · rw [hu]
        exact findIncludeRef_cons_match rest hm2
      · rw [hu]
        simp [List.getD_cons_zero]
    · have hm' : identMatch cns cn inc = false := by simpa using hm
      obtain ⟨i, hi, hc⟩ := ih
      refine ⟨i + 1, ?_, ?_⟩
      · simp [upsertConds, hm', findIncludeRef_cons_not_match _ hm', hi]
      · simpa [upsertConds, hm'] using hc

theorem isPrefixDuplicate_upsert (cns cn pfxStr : String) (l : List Include)
    (h : isPrefixDuplicate l cns cn pfxStr = false) :
    isPrefixDuplicate (upsertConds cns cn [⟨pfxStr, none⟩] l) cns cn pfxStr = false := by
  cases hdup : isPrefixDuplicate (upsertConds cns cn [⟨pfxStr, none⟩] l) cns cn pfxStr with
  | false => rfl
  | true =>
    obtain ⟨inc, hmem, hnm, c, hc, hp⟩ := (isPrefixDuplicate_iff _ cns cn pfxStr).mp hdup
    rcases upsertConds_mem cns cn _ l inc hmem with hl | hm
    · have : isPrefixDuplicate l cns cn pfxStr = true :=
        (isPrefixDuplicate_iff l cns cn pfxStr).mpr ⟨inc, hl, hnm, c, hc, hp⟩
      rw [h] at this
      exact absurd this (by simp)
    · rw [hm] at hnm
      exact absurd hnm (by simp)

theorem erase_no_ident (l : List Include) (cns cn : String) (i : Nat)
    (hcnt : countIdent l cns cn ≤ 1) (h : findIncludeRef l cns cn = some i) :
    ∀ inc ∈ l.take i ++ l.drop (i + 1), identMatch cns cn inc = false := by
  induction l generalizing i with
  | nil => simp [findIncludeRef] at h
  | cons inc rest ih =>
    by_cases hm : identMatch cns cn inc = true
    · rw [findIncludeRef_cons_match rest hm] at h
      obtain rfl : (0 : Nat) = i := by simpa using h
      rw [countIdent_cons, hm] at hcnt
      simp only [if_true] at hcnt
      simp only [List.take_zero, List.drop_succ_cons, List.drop_zero, List.nil_append]
      rw [← countIdent_eq_zero_iff]
      omega
    · have hm' : identMatch cns cn inc = false := by simpa using hm
      rw [findIncludeRef_cons_not_match rest hm'] at h
      cases hfr : findIncludeRef rest cns cn with
      | none => rw [hfr] at h; simp at h
      | some i' =>
        rw [hfr] at h
        simp only [Option.map_some'] at h
        obtain rfl : i' + 1 = i := by simpa using h
        rw [countIdent_cons, hm'] at hcnt
        simp only [Bool.false_eq_true, if_false, Nat.zero_add] at hcnt
        intro x hx
        simp only [List.take_succ_cons, List.drop_succ_cons, List.cons_append,
          List.mem_cons] at hx
        rcases hx with rfl | hx
        · exact hm'
        · exact ih i' hcnt hfr x hx

/-! ### Helper lemmas about the reconcile step functions -/

theorem reconcileParentStep_err_frame (w : World) (e : RErr)
    (h : (reconcileParentStep w).err = some e) :
    (reconcileParentStep w).world = w ∧ (reconcileParentStep w).ops = [] := by
  cases hp : parseParentRef (lookupAnn w.child.annots parentRefAnn) with
  | none => simp [reconcileParentStep, hp]
  | some pr =>
    cases hq : w.parent with
    | none => simp [reconcileParentStep, hp, hq]
    | some p =>
      cases hm : merge p.includes w.child.namespc w.child.name (desiredPfx w.child)
          (lookupAnn p.annots allowInclusionAnn == "true") with
      | error e' => cases e' <;> simp [reconcileParentStep, hp, hq, hm]
      | ok l => simp [reconcileParentStep, hp, hq, hm] at h

theorem reconcileParentStep_ok_inv (w : World)
    (h : (reconcileParentStep w).err = none) :
    ∃ p l, w.parent = some p ∧
      merge p.includes w.child.namespc w.child.name (desiredPfx w.child)
        (lookupAnn p.annots allowInclusionAnn == "true") = .ok l ∧
      (reconcileParentStep w).world = ⟨w.child, some { p with includes := l }⟩ ∧
      (reconcileParentStep w).ops = [.updateParent { p with includes := l }] := by
  cases hp : parseParentRef (lookupAnn w.child.annots parentRefAnn) with
  | none => simp [reconcileParentStep, hp] at h
  | some pr =>
    cases hq : w.parent with
    | none => simp [reconcileParentStep, hp, hq] at h
    | some p =>
      cases hm : merge p.includes w.child.namespc w.child.name (desiredPfx w.child)
          (lookupAnn p.annots allowInclusionAnn == "true") with
      | error e' => cases e' <;> simp [reconcileParentStep, hp, hq, hm] at h
      | ok l =>
        refine ⟨p, l, rfl, hm, ?_, ?_⟩ <;> simp [reconcileParentStep, hp, hq, hm]

/-! ### Helper lemmas about splitting the parent reference -/

theorem splitOnChar_ne_nil (c : Char) (l : List Char) : splitOnChar c l ≠ [] := by
  cases l with
  | nil => simp [splitOnChar]
  | cons x xs =>
    rw [splitOnChar]
    cases splitOnChar c xs with
    | nil => simp
    | cons y ys => by_cases h : x = c <;> simp [h]

theorem splitOnChar_singleton_inv (c : Char) (l b : List Char)
    (h : splitOnChar c l = [b]) : l = b ∧ c ∉ b := by
  induction l generalizing b with
  | nil =>
    rw [splitOnChar] at h
    obtain rfl : ([] : List Char) = b := by simpa using h
    simp
  | cons x xs ih =>
    rw [splitOnChar] at h
    cases hs : splitOnChar c xs with
    | nil => exact absurd hs (splitOnChar_ne_nil c xs)
    | cons y ys =>
      rw [hs] at h
      by_cases hx : x = c
      · simp [hx] at h
      · simp only [hx, if_false] at h
        injection h with hb hys
        subst hb
        subst hys
        obtain ⟨hxs, hcy⟩ := ih y hs
        subst hxs
        refine ⟨rfl, ?_⟩
        have hcx : ¬c = x := fun h => hx h.symm
        simp [hcy, hcx]

theorem splitOnChar_pair_inv (c : Char) (l a b : List Char)
    (h : splitOnChar c l = [a, b]) : l = a ++ c :: b ∧ c ∉ a ∧ c ∉ b := by
  induction l generalizing a b with
  | nil =>
    rw [splitOnChar] at h
    simp at h
  | cons x xs ih =>
    rw [splitOnChar] at h
    cases hs : splitOnChar c xs with
    | nil => exact absurd hs (splitOnChar_ne_nil c xs)
    | cons y ys =>
      rw [hs] at h
      by_cases hx : x = c
      · simp only [hx, if_true, List.cons.injEq] at h
        obtain ⟨ha, hy, hys⟩ := h
        subst ha
        subst hy
        rw [hys] at hs
        obtain ⟨hxs, hcy⟩ := splitOnChar_singleton_inv c xs y hs
        refine ⟨?_, by simp, hcy⟩
        simp [hx, hxs]
      · simp only [hx, if_false, List.cons.injEq] at h
        obtain ⟨ha, hys⟩ := h
        rw [hys] at hs
        obtain ⟨hxs, hca, hcb⟩ := ih y b hs
        subst ha
        refine ⟨?_, ?_, hcb⟩
        · simp [hxs]
        · have hcx : ¬c = x := fun hh => hx hh.symm
          simp [hca, hcx]

theorem splitOnChar_no_sep (c : Char) (b : List Char) (h : c ∉ b) :
    splitOnChar c b = [b] := by
  induction b with
  | nil => rw [splitOnChar]
  | cons x xs ih =>
    simp only [List.mem_cons, not_or] at h
    rw [splitOnChar, ih h.2]
    have hx : ¬x = c := fun hh => h.1 hh.symm
    simp [hx]

theorem splitOnChar_append (c : Char) (a b : List Char) (ha : c ∉ a) :
    splitOnChar c (a ++ c :: b) = a :: splitOnChar c b := by
  induction a with
  | nil =>
    rw [List.nil_append, splitOnChar]
    cases hs : splitOnChar c b with
    | nil => exact absurd hs (splitOnChar_ne_nil c b)
    | cons y ys => simp
  | cons x xs ih =>
    simp only [List.mem_cons, not_or] at ha
    rw [List.cons_append, splitOnChar, ih ha.2]
    have hx : ¬x = c := fun hh => ha.1 hh.symm
    simp [hx]

theorem toList_mk (l : List Char) : (String.mk l).toList = l := rfl

theorem mk_toList (s : String) : String.mk s.toList = s := rfl

theorem parseParentRef_eq_some_iff (s pns pn : String) :
    parseParentRef s = some (pns, pn) ↔
      '/' ∉ pns.toList ∧ '/' ∉ pn.toList ∧
        s.toList = pns.toList ++ '/' :: pn.toList := by
  constructor
  · intro h
    rw [parseParentRef] at h
    cases hs : splitOnChar '/' s.toList with
    | nil => rw [hs] at h; simp at h
    | cons a tl =>
      cases tl with
      | nil => rw [hs] at h; simp at h
      | cons b tl2 =>
        cases tl2 with
        | nil =>
          rw [hs] at h
          simp only [Option.some.injEq, Prod.mk.injEq] at h
          obtain ⟨h1, h2⟩ := h
          obtain ⟨hdec, ha, hb⟩ := splitOnChar_pair_inv '/' s.toList a b hs
          subst h1
          subst h2
          exact ⟨by simpa [toList_mk] using ha, by simpa [toList_mk] using hb,
            by simpa [toList_mk] using hdec⟩
        | cons d tl3 => rw [hs] at h; simp at h
  · rintro ⟨ha, hb, hs⟩
    rw [parseParentRef, hs, splitOnChar_append _ _ _ ha, splitOnChar_no_sep _ _ hb]
    simp [mk_toList]

/-! ### Equations for the cleanup and terminating paths -/

theorem hasFinalizer_removeFinalizer (p : Proxy) :
    hasFinalizer (removeFinalizer p) = false := by
  simp only [hasFinalizer, removeFinalizer]
  induction p.finalizers with
  | nil => rfl
  | cons f fs ih =>
    by_cases h : (f == finalizerName) = true
    · simp [List.filter_cons, bne, h, ih]
    · have h' : (f == finalizerName) = false := by simpa using h
      simp [List.filter_cons, bne, h', ih]

theorem cleanupStep_eq_parseErr (w : World)
    (hp : parseParentRef (lookupAnn w.child.annots parentRefAnn) = none) :
    cleanupStep w = ⟨w, [], some .parseErr⟩ := by
  simp [cleanupStep, hp]

theorem cleanupStep_eq_notFound (w : World) (pr : String × String)
    (hp : parseParentRef (lookupAnn w.child.annots parentRefAnn) = some pr)
    (hq : w.parent = none) :
    cleanupStep w = ⟨w, [], some .parentNotFound⟩ := by
  simp [cleanupStep, hp, hq]

theorem cleanupStep_eq_notAllowed (w : World) (pr : String × String) (p : Proxy)
    (hp : parseParentRef (lookupAnn w.child.annots parentRefAnn) = some pr)
    (hq : w.parent = some p)
    (hal : lookupAnn p.annots allowInclusionAnn ≠ "true") :
    cleanupStep w = ⟨w, [], some .notAllowed⟩ := by
  have hal2 : (lookupAnn p.annots allowInclusionAnn != "true") = true := by
    rw [bne_iff_ne]
    exact hal
  simp [cleanupStep, hp, hq, hal2]

theorem cleanupStep_eq_noEntry (w : World) (pr : String × String) (p : Proxy)
    (hp : parseParentRef (lookupAnn w.child.annots parentRefAnn) = some pr)
    (hq : w.parent = some p)
    (hal : lookupAnn p.annots allowInclusionAnn = "true")
    (hf : findIncludeRef p.includes w.child.namespc w.child.name = none) :
    cleanupStep w = ⟨w, [], none⟩ := by
  simp [cleanupStep, hp, hq, hal, hf]

theorem cleanupStep_eq_erase (w : World) (pr : String × String) (p : Proxy) (i : Nat)
    (hp : parseParentRef (lookupAnn w.child.annots parentRefAnn) = some pr)
    (hq : w.parent = some p)
    (hal : lookupAnn p.annots allowInclusionAnn = "true")
    (hf : findIncludeRef p.includes w.child.namespc w.child.name = some i) :
    cleanupStep w =
      ⟨⟨w.child, some { p with includes := p.includes.take i ++ p.includes.drop (i + 1) }⟩,
        [.updateParent { p with includes := p.includes.take i ++ p.includes.drop (i + 1) }],
        none⟩ := by
  simp [cleanupStep, hp, hq, hal, hf]

theorem terminatingStep_of_err (w : World) (e : RErr)
    (hdel : w.child.deletionRequested = true) (hfin : hasFinalizer w.child = true)
    (hc : cleanupStep w = ⟨w, [], some e⟩) :
    terminatingStep w = ⟨w, [], some e⟩ := by
  simp [terminatingStep, hdel, hfin, hc]

theorem terminatingStep_of_ok (w : World) (w' : World) (ops : List Op)
    (hdel : w.child.deletionRequested = true) (hfin : hasFinalizer w.child = true)
    (hc : cleanupStep w = ⟨w', ops, none⟩) :
    terminatingStep w =
      ⟨⟨removeFinalizer w'.child, w'.parent⟩,
        ops ++ [.updateChild (removeFinalizer w'.child)], none⟩ := by
  simp [terminatingStep, hdel, hfin, hc]

/-! ### Claim theorems -/

/-- C1: if the parent's include list contains an entry whose identity differs
from the child's but whose prefix equals the desired prefix, the merge fails
with the duplicate-prefix error and the reconcile step leaves the world (in
particular the parent's include list) byte-for-byte unchanged, writing
nothing; a self-collision — only the child's own entry carrying the prefix —
is not a conflict and does not produce the duplicate-prefix error. -/
theorem merge_duplicate_pfx_guard :
    (∀ (l : List Include) (cns cn pfxStr : String),
        (∃ inc ∈ l, identMatch cns cn inc = false ∧
            ∃ c ∈ inc.conditions, c.pfx = pfxStr) →
        merge l cns cn pfxStr true = .error .duplicatePfx)
    ∧ (∀ (l : List Include) (cns cn pfxStr : String),
        (∀ inc ∈ l, identMatch cns cn inc = false →
            ∀ c ∈ inc.conditions, c.pfx ≠ pfxStr) →
        merge l cns cn pfxStr true ≠ .error .duplicatePfx)
    ∧ (∀ (w : World), (reconcileParentStep w).err = some .dupPfx →
        (reconcileParentStep w).world = w ∧ (reconcileParentStep w).ops = []) := by
  refine ⟨?_, ?_, ?_⟩
  · intro l cns cn pfxStr h
    have hd : isPrefixDuplicate l cns cn pfxStr = true :=
      (isPrefixDuplicate_iff l cns cn pfxStr).mpr h
    simp [merge, hd]
  · intro l cns cn pfxStr h
    have hd : isPrefixDuplicate l cns cn pfxStr = false := by
      cases hv : isPrefixDuplicate l cns cn pfxStr with
      | false => rfl
      | true =>
        obtain ⟨inc, hmem, hnm, c, hc, hp⟩ := (isPrefixDuplicate_iff l cns cn pfxStr).mp hv
        exact absurd hp (h inc hmem hnm c hc)
    rw [merge_ok_of_not_dup l cns cn pfxStr hd]
    simp
  · intro w h
    exact reconcileParentStep_err_frame w _ h

theorem merge_duplicate_pfx_guard_witness :
    merge [⟨"hoge", "hoge", [⟨"/hoge", none⟩]⟩] "sales-team" "sales" "/hoge" true =
      .error .duplicatePfx :=
  merge_duplicate_pfx_guard.1 [⟨"hoge", "hoge", [⟨"/hoge", none⟩]⟩]
    "sales-team" "sales" "/hoge" (by decide)

/-- C2: a successful merge either replaces the conditions of the child's
existing entry in place (same length, same position, all other positions
untouched) or, when no entry with the child's identity exists, appends a
fresh entry at the end; and when the input list had at most one entry for
the child, the result has exactly one. -/
theorem merge_upsert_shape (l : List Include) (cns cn pfxStr : String) (b : Bool)
    (l' : List Include) (h : merge l cns cn pfxStr b = .ok l') :
    (∀ i, findIncludeRef l cns cn = some i →
        l'.length = l.length ∧
        l'.getD i dummyInclude =
          { l.getD i dummyInclude with conditions := [⟨pfxStr, none⟩] } ∧
        ∀ j, j ≠ i → l'.getD j dummyInclude = l.getD j dummyInclude)
    ∧ (findIncludeRef l cns cn = none →
        l' = l ++ [⟨cns, cn, [⟨pfxStr, none⟩]⟩])
    ∧ (countIdent l cns cn ≤ 1 → countIdent l' cns cn = 1) := by
  obtain ⟨hb, hd, hl⟩ := merge_ok_inv l cns cn pfxStr b l' h
  subst hl
  refine ⟨?_, ?_, ?_⟩
  · intro i hi
    rw [← set_eq_upsertConds cns cn _ l i hi]
    obtain ⟨hlen, _, _⟩ := findIncludeRef_spec l cns cn i hi
    refine ⟨by simp, ?_, ?_⟩
    · simp [List.getD_eq_getElem?_getD, List.getElem?_set_self hlen]
    · intro j hj
      simp [List.getD_eq_getElem?_getD, List.getElem?_set_ne (fun hh => hj hh.symm)]
  · intro hnone
    rw [← append_eq_upsertConds cns cn _ l hnone]
  · intro hcnt
    cases hfi : findIncludeRef l cns cn with
    | none =>
      rw [countIdent_upsert_none cns cn _ l hfi]
      have : countIdent l cns cn = 0 :=
        (countIdent_eq_zero_iff l cns cn).mpr ((findIncludeRef_eq_none_iff l cns cn).mp hfi)
      omega
    | some i =>
      rw [countIdent_upsert_some cns cn _ l i hfi]
      have := countIdent_pos_of_some l cns cn i hfi
      omega

theorem merge_upsert_shape_witness :
    ([⟨"a", "b", [⟨"/r", none⟩]⟩] : List Include).length =
        ([⟨"a", "b", [⟨"/p", some "q"⟩]⟩] : List Include).length ∧
      ([⟨"a", "b", [⟨"/r", none⟩]⟩] : List Include).getD 0 dummyInclude =
        { ([⟨"a", "b", [⟨"/p", some "q"⟩]⟩] : List Include).getD 0 dummyInclude with
            conditions := [⟨"/r", none⟩] } ∧
      ∀ j, j ≠ 0 →
        ([⟨"a", "b", [⟨"/r", none⟩]⟩] : List Include).getD j dummyInclude =
          ([⟨"a", "b", [⟨"/p", some "q"⟩]⟩] : List Include).getD j dummyInclude :=
  (merge_upsert_shape [⟨"a", "b", [⟨"/p", some "q"⟩]⟩] "a" "b" "/r" true
      [⟨"a", "b", [⟨"/r", none⟩]⟩] (by rfl)).1 0 (by decide)

/-- C3: merging with a parent that does not allow inclusion fails with the
inclusion-not-permitted error; allowing inclusion holds exactly when the
annotation map binds the allow-inclusion key to the value "true"; and the
reconcile step reports the error with the world unchanged and no writes. -/
theorem merge_inclusion_permission_guard :
    (∀ (l : List Include) (cns cn pfxStr : String),
        merge l cns cn pfxStr false = .error .notPermitted)
    ∧ (∀ m : List (String × String),
        lookupAnn m allowInclusionAnn = "true" ↔
          findAnn m allowInclusionAnn = some "true")
    ∧ (∀ (w : World) (pr : String × String) (p : Proxy),
        parseParentRef (lookupAnn w.child.annots parentRefAnn) = some pr →
        w.parent = some p →
        lookupAnn p.annots allowInclusionAnn ≠ "true" →
        (reconcileParentStep w).err = some .notAllowed ∧
        (reconcileParentStep w).world = w ∧ (reconcileParentStep w).ops = []) := by
  refine ⟨?_, ?_, ?_⟩
  · intro l cns cn pfxStr
    simp [merge]
  · intro m
    unfold lookupAnn
    cases hf : findAnn m allowInclusionAnn with
    | none => simp [hf]
    | some v => simp [hf]
  · intro w pr p hp hq hal
    have hb : (lookupAnn p.annots allowInclusionAnn == "true") = false := by
      rw [beq_eq_false_iff_ne]
      exact hal
    refine ⟨?_, ?_, ?_⟩ <;> simp [reconcileParentStep, hp, hq, hb, merge]

theorem merge_inclusion_permission_guard_witness :
    (reconcileParentStep
        ⟨⟨"c", "n", [(parentRefAnn, "ns/root")], [], false, []⟩,
          some ⟨"ns", "root", [], [], false, []⟩⟩).err = some .notAllowed :=
  (merge_inclusion_permission_guard.2.2
      ⟨⟨"c", "n", [(parentRefAnn, "ns/root")], [], false, []⟩,
        some ⟨"ns", "root", [], [], false, []⟩⟩
      ("ns", "root") ⟨"ns", "root", [], [], false, []⟩
      (by decide) (by decide) (by decide)).1

/-- C8: merge is idempotent — a second application with identical inputs,
fed the first application's result as the current list, succeeds and
returns that result unchanged. -/
theorem merge_idem (l : List Include) (cns cn pfxStr : String) (b : Bool)
    (l' : List Include) (h : merge l cns cn pfxStr b = .ok l') :
    merge l' cns cn pfxStr b = .ok l' := by
  obtain ⟨hb, hd, hl⟩ := merge_ok_inv l cns cn pfxStr b l' h
  subst hb
  subst hl
  rw [merge_ok_of_not_dup _ cns cn pfxStr (isPrefixDuplicate_upsert cns cn pfxStr l hd)]
  rw [upsertConds_idem]

theorem merge_idem_witness :
    merge [⟨"blog-team", "blog", [⟨"/blog", none⟩]⟩] "blog-team" "blog" "/blog" true =
      .ok [⟨"blog-team", "blog", [⟨"/blog", none⟩]⟩] :=
  merge_idem [] "blog-team" "blog" "/blog" true
    [⟨"blog-team", "blog", [⟨"/blog", none⟩]⟩] (by rfl)

/-- C10: after a successful merge the child's entry carries exactly one
match condition, holding only the desired prefix; any previous conditions
of the entry, including non-prefix ones, are discarded wholesale. -/
theorem merge_single_prefix_condition (l : List Include) (cns cn pfxStr : String)
    (b : Bool) (l' : List Include) (h : merge l cns cn pfxStr b = .ok l') :
    ∃ i, findIncludeRef l' cns cn = some i ∧
      (l'.getD i dummyInclude).conditions = [{ pfx := pfxStr, header := none }] := by
  obtain ⟨hb, hd, hl⟩ := merge_ok_inv l cns cn pfxStr b l' h
  subst hl
  exact upsertConds_entry cns cn _ l

theorem merge_single_prefix_condition_witness :
    ∃ i, findIncludeRef [⟨"a", "b", [⟨"/r", none⟩]⟩] "a" "b" = some i ∧
      (([⟨"a", "b", [⟨"/r", none⟩]⟩] : List Include).getD i dummyInclude).conditions =
        [{ pfx := "/r", header := none }] :=
  merge_single_prefix_condition [⟨"a", "b", [⟨"/p", some "h"⟩, ⟨"/z", none⟩]⟩]
    "a" "b" "/r" true [⟨"a", "b", [⟨"/r", none⟩]⟩] (by rfl)

/-- C4 counterexample: with the parent object absent from the store, the
terminating path does not tolerate the missing parent — it returns the
parent-not-found error and the Cleanup Marker stays attached to the child,
contradicting the claim that removal succeeds and the marker is detached
even when the parent is already gone. -/
theorem cleanup_missing_parent_counterexample :
    (terminatingStep
        ⟨⟨"blog-team", "blog", [(parentRefAnn, "root/example")],
            [finalizerName], true, []⟩, none⟩).err = some .parentNotFound
    ∧ hasFinalizer
        (terminatingStep
          ⟨⟨"blog-team", "blog", [(parentRefAnn, "root/example")],
              [finalizerName], true, []⟩, none⟩).world.child = true := by
  exact ⟨rfl, rfl⟩

/-- C4 (amended): in the Terminating state the removal runs only after the
parent reference parses, the parent object is fetched, and the parent
allows inclusion; a parent list lacking the child's entry is tolerated (a
no-op, and the Cleanup Marker is still detached), but a missing parent, or
a parent that does not allow inclusion, is an error: the step returns the
error, writes nothing, and the Cleanup Marker is not detached. -/
theorem terminating_missing_parent_fatal (w : World) (pr : String × String)
    (hdel : w.child.deletionRequested = true)
    (hfin : hasFinalizer w.child = true)
    (hp : parseParentRef (lookupAnn w.child.annots parentRefAnn) = some pr) :
    (w.parent = none →
        (terminatingStep w).err = some .parentNotFound ∧
        (terminatingStep w).world = w ∧ (terminatingStep w).ops = [])
    ∧ (∀ p, w.parent = some p →
        lookupAnn p.annots allowInclusionAnn ≠ "true" →
        (terminatingStep w).err = some .notAllowed ∧
        (terminatingStep w).world = w ∧ (terminatingStep w).ops = [])
    ∧ (∀ p, w.parent = some p →
        lookupAnn p.annots allowInclusionAnn = "true" →
        findIncludeRef p.includes w.child.namespc w.child.name = none →
        (terminatingStep w).err = none ∧
        (terminatingStep w).world.parent = some p ∧
        hasFinalizer (terminatingStep w).world.child = false) := by
  refine ⟨?_, ?_, ?_⟩
  · intro hq
    rw [terminatingStep_of_err w _ hdel hfin (cleanupStep_eq_notFound w pr hp hq)]
    exact ⟨rfl, rfl, rfl⟩
  · intro p hq hal
    rw [terminatingStep_of_err w _ hdel hfin (cleanupStep_eq_notAllowed w pr p hp hq hal)]
    exact ⟨rfl, rfl, rfl⟩
  · intro p hq hal hf
    rw [terminatingStep_of_ok w w [] hdel hfin (cleanupStep_eq_noEntry w pr p hp hq hal hf)]
    exact ⟨rfl, hq, hasFinalizer_removeFinalizer w.child⟩

theorem terminating_missing_parent_fatal_witness :
    (terminatingStep
        ⟨⟨"sales-team", "sales", [(parentRefAnn, "root/example")],
            [finalizerName], true, []⟩, none⟩).err = some .parentNotFound :=
  ((terminating_missing_parent_fatal
      ⟨⟨"sales-team", "sales", [(parentRefAnn, "root/example")],
          [finalizerName], true, []⟩, none⟩
      ("root", "example") (by decide) (by decide) (by rfl)).1 rfl).1

/-- C5 counterexample: the annotation value "root/" is malformed under the
claim (its second segment is empty), yet parsing succeeds with an empty
name instead of yielding a parse error. -/
theorem parse_accepts_empty_segment :
    parseParentRef "root/" = some ("root", "") := by
  rfl

/-- C5 (amended): parsing splits the value on the slash character and
succeeds exactly when the value decomposes as namespace, slash, name with
neither segment containing a further slash; the segments may be empty, so
an empty namespace or name is accepted rather than rejected, and on
success the reference is exactly that two-segment decomposition — never a
silently defaulted value. -/
theorem parse_parent_characterization (s pns pn : String) :
    parseParentRef s = some (pns, pn) ↔
      '/' ∉ pns.toList ∧ '/' ∉ pn.toList ∧
        s.toList = pns.toList ++ '/' :: pn.toList :=
  parseParentRef_eq_some_iff s pns pn

theorem parse_parent_characterization_witness :
    parseParentRef "root/example" = some ("root", "example") :=
  (parse_parent_characterization "root/example" "root" "example").mpr (by decide)

/-- C6: when the child's prefix annotation is absent or empty, a
successful reconcile gives the child's entry in the written-back parent
the default prefix, the slash followed by the child's own name. -/
theorem default_pfx_law (w : World) (p' : Proxy)
    (hann : findAnn w.child.annots pathPrefixAnn = none ∨
      findAnn w.child.annots pathPrefixAnn = some "")
    (hok : (reconcileParentStep w).err = none)
    (hp' : (reconcileParentStep w).world.parent = some p') :
    ∃ i, findIncludeRef p'.includes w.child.namespc w.child.name = some i ∧
      (p'.includes.getD i dummyInclude).conditions =
        [{ pfx := "/" ++ w.child.name, header := none }] := by
  have hdp : desiredPfx w.child = "/" ++ w.child.name := by
    unfold desiredPfx lookupAnn
    rcases hann with h | h <;> rw [h] <;> simp
  obtain ⟨p, lm, hq, hm, hw, _⟩ := reconcileParentStep_ok_inv w hok
  rw [hw] at hp'
  have hp2 : some { p with includes := lm } = some p' := hp'
  injection hp2 with h2
  subst h2
  rw [hdp] at hm
  obtain ⟨hb, hd, hl⟩ := merge_ok_inv _ _ _ _ _ _ hm
  show ∃ i, findIncludeRef lm w.child.namespc w.child.name = some i ∧
    (lm.getD i dummyInclude).conditions = [{ pfx := "/" ++ w.child.name, header := none }]
  rw [hl]
  exact upsertConds_entry _ _ _ _

theorem default_pfx_law_witness :
    ∃ i, findIncludeRef [⟨"blog-team", "blog", [⟨"/blog", none⟩]⟩]
          "blog-team" "blog" = some i ∧
      (([⟨"blog-team", "blog", [⟨"/blog", none⟩]⟩] : List Include).getD i
          dummyInclude).conditions = [{ pfx := "/blog", header := none }] :=
  default_pfx_law
    ⟨⟨"blog-team", "blog", [(parentRefAnn, "root/example")], [], false, []⟩,
      some ⟨"root", "example", [(allowInclusionAnn, "true")], [], false, []⟩⟩
    ⟨"root", "example", [(allowInclusionAnn, "true")], [], false,
      [⟨"blog-team", "blog", [⟨"/blog", none⟩]⟩]⟩
    (Or.inl (by decide)) (by rfl) (by rfl)

/-- C7: removal locates the entry by exact identity — if no entry for the
child is present the list is returned unchanged (idempotent no-op), and if
one is present the returned list is the original with exactly the first
matching entry excised, the relative order of the rest preserved. -/
theorem remove_by_identity (l : List Include) (cns cn : String) :
    ((∀ inc ∈ l, identMatch cns cn inc = false) → removeInclude l cns cn = l)
    ∧ (∀ inc ∈ l, identMatch cns cn inc = true →
        ∃ i, i < l.length ∧ identMatch cns cn (l.getD i dummyInclude) = true ∧
          (∀ j, j < i → identMatch cns cn (l.getD j dummyInclude) = false) ∧
          removeInclude l cns cn = l.take i ++ l.drop (i + 1)) := by
  constructor
  · intro h
    have hf : findIncludeRef l cns cn = none := (findIncludeRef_eq_none_iff l cns cn).mpr h
    simp [removeInclude, hf]
  · intro inc hmem hm
    obtain ⟨i, hf⟩ := findIncludeRef_isSome_of_mem l cns cn inc hmem hm
    obtain ⟨h1, h2, h3⟩ := findIncludeRef_spec l cns cn i hf
    exact ⟨i, h1, h2, h3, by simp [removeInclude, hf]⟩

theorem remove_by_identity_witness :
    ∃ i, i < ([⟨"hoge", "hoge", [⟨"/hoge", none⟩]⟩] : List Include).length ∧
      identMatch "hoge" "hoge"
          (([⟨"hoge", "hoge", [⟨"/hoge", none⟩]⟩] : List Include).getD i dummyInclude) = true ∧
      (∀ j, j < i → identMatch "hoge" "hoge"
          (([⟨"hoge", "hoge", [⟨"/hoge", none⟩]⟩] : List Include).getD j dummyInclude) = false) ∧
      removeInclude [⟨"hoge", "hoge", [⟨"/hoge", none⟩]⟩] "hoge" "hoge" =
        ([⟨"hoge", "hoge", [⟨"/hoge", none⟩]⟩] : List Include).take i ++
          ([⟨"hoge", "hoge", [⟨"/hoge", none⟩]⟩] : List Include).drop (i + 1) :=
  (remove_by_identity [⟨"hoge", "hoge", [⟨"/hoge", none⟩]⟩] "hoge" "hoge").2
    ⟨"hoge", "hoge", [⟨"/hoge", none⟩]⟩ (by decide) (by decide)

/-- C9: on the terminating path, if the step succeeds the Cleanup Marker
is detached, the written-back parent holds no entry for the child (given
the invariant of at most one entry per child), and in the ordered write
sequence the child write that drops the marker comes last, after every
parent write; if the step fails the child — and thus the marker — is left
untouched.  Hence the include entry is removed from the parent before the
marker is detached, and the marker is detached only after removal
completes. -/
theorem cleanup_precedes_marker_detach (w : World)
    (hdel : w.child.deletionRequested = true)
    (hfin : hasFinalizer w.child = true)
    (hcnt : match w.parent with
      | some p => countIdent p.includes w.child.namespc w.child.name ≤ 1
      | none => True) :
    ((terminatingStep w).err = none →
        hasFinalizer (terminatingStep w).world.child = false ∧
        (∀ p', (terminatingStep w).world.parent = some p' →
            ∀ inc ∈ p'.includes, identMatch w.child.namespc w.child.name inc = false) ∧
        (∃ c', ((terminatingStep w).ops).getLast? = some (.updateChild c') ∧
            hasFinalizer c' = false ∧
            ∀ op ∈ ((terminatingStep w).ops).dropLast, ∃ q, op = .updateParent q))
    ∧ (∀ e, (terminatingStep w).err = some e →
        (terminatingStep w).world.child = w.child ∧
        hasFinalizer (terminatingStep w).world.child = true) := by
  cases hp : parseParentRef (lookupAnn w.child.annots parentRefAnn) with
  | none =>
    rw [terminatingStep_of_err w _ hdel hfin (cleanupStep_eq_parseErr w hp)]
    exact ⟨fun h => by simp at h, fun e he => ⟨rfl, hfin⟩⟩
  | some pr =>
    cases hq : w.parent with
    | none =>
      rw [terminatingStep_of_err w _ hdel hfin (cleanupStep_eq_notFound w pr hp hq)]
      exact ⟨fun h => by simp at h, fun e he => ⟨rfl, hfin⟩⟩
    | some p =>
      by_cases hal : lookupAnn p.annots allowInclusionAnn = "true"
      · cases hf : findIncludeRef p.includes w.child.namespc w.child.name with
        | none =>
          rw [terminatingStep_of_ok w w [] hdel hfin
            (cleanupStep_eq_noEntry w pr p hp hq hal hf)]
          refine ⟨fun _ => ⟨hasFinalizer_removeFinalizer _, ?_, ?_⟩,
            fun e he => by simp at he⟩
          · intro p' hp' inc hinc
            have hp2 : w.parent = some p' := hp'
            rw [hq] at hp2
            injection hp2 with h2
            rw [← h2] at hinc
            exact (findIncludeRef_eq_none_iff p.includes _ _).mp hf inc hinc
          · exact ⟨removeFinalizer w.child, rfl, hasFinalizer_removeFinalizer _, by simp⟩
        | some i =>
          rw [terminatingStep_of_ok w
            ⟨w.child, some { p with includes := p.includes.take i ++ p.includes.drop (i + 1) }⟩
            [.updateParent { p with includes := p.includes.take i ++ p.includes.drop (i + 1) }]
            hdel hfin (cleanupStep_eq_erase w pr p i hp hq hal hf)]
          refine ⟨fun _ => ⟨hasFinalizer_removeFinalizer _, ?_, ?_⟩,
            fun e he => by simp at he⟩
          · intro p' hp' inc hinc
            have hp2 : some { p with includes := p.includes.take i ++ p.includes.drop (i + 1) } =
                some p' := hp'
            injection hp2 with h2
            rw [← h2] at hinc
            have hcnt2 : countIdent p.includes w.child.namespc w.child.name ≤ 1 := by
              have hc := hcnt
              rw [hq] at hc
              simpa using hc
            exact erase_no_ident p.includes w.child.namespc w.child.name i hcnt2 hf inc hinc
          · refine ⟨removeFinalizer w.child, rfl, hasFinalizer_removeFinalizer _, ?_⟩
            intro op hop
            have hop2 : op =
                Op.updateParent
                  { p with includes := p.includes.take i ++ p.includes.drop (i + 1) } := by
              simpa using hop
            exact ⟨_, hop2⟩
      · rw [terminatingStep_of_err w _ hdel hfin (cleanupStep_eq_notAllowed w pr p hp hq hal)]
        exact ⟨fun h => by simp at h, fun e he => ⟨rfl, hfin⟩⟩

theorem cleanup_precedes_marker_detach_witness :
    hasFinalizer
      (terminatingStep
        ⟨⟨"blog-team", "blog", [(parentRefAnn, "root/example")],
            [finalizerName], true, []⟩,
          some ⟨"root", "example", [(allowInclusionAnn, "true")], [], false,
            [⟨"blog-team", "blog", [⟨"/blog", none⟩]⟩]⟩⟩).world.child = false :=
  ((cleanup_precedes_marker_detach
      ⟨⟨"blog-team", "blog", [(parentRefAnn, "root/example")],
          [finalizerName], true, []⟩,
        some ⟨"root", "example", [(allowInclusionAnn, "true")], [], false,
          [⟨"blog-team", "blog", [⟨"/blog", none⟩]⟩]⟩⟩
      (by decide) (by decide) (by decide)).1 (by rfl)).1

end Oyako
